import Mathlib

/-!
Verification of the `char-iter` crate: a double-ended, exact-size iterator
over an inclusive range of Unicode scalar values that skips the UTF-16
surrogate block.  Codepoints are embedded as `Nat`; the `u32` arithmetic of
the source is kept explicit via reduction modulo `U32 = 2^32` at the spots
where the source computes in `u32`.
-/

namespace CharIter

/-- The surrogate codepoint block `[0xD800, 0xDFFF]`. -/
def inSurrogateBlock (n : Nat) : Prop := 0xD800 ≤ n ∧ n ≤ 0xDFFF

instance (n : Nat) : Decidable (inSurrogateBlock n) :=
  inferInstanceAs (Decidable (0xD800 ≤ n ∧ n ≤ 0xDFFF))

/-- A Unicode scalar value: a codepoint in `[0, 0x10FFFF]` outside the
surrogate block.  This is the value-level meaning of Rust's `char`. -/
def IsScalar (n : Nat) : Prop := n ≤ 0x10FFFF ∧ ¬ inSurrogateBlock n

instance (n : Nat) : Decidable (IsScalar n) :=
  inferInstanceAs (Decidable (n ≤ 0x10FFFF ∧ ¬ inSurrogateBlock n))

/-- The modulus of 32-bit unsigned arithmetic (`u32` in the source). -/
def U32 : Nat := 4294967296

/-- `struct Iter { start: char, end: char, finished: bool }` (`end` is a Lean
keyword, hence the trailing underscore). -/
structure Iter where
  start : Nat
  end_ : Nat
  finished : Bool
deriving DecidableEq

/-- `pub fn new(start: char, end: char) -> Iter`.  The source `assert!` panic
on `start > end` is modelled as `none`. -/
def new (start end_ : Nat) : Option Iter :=
  if start ≤ end_ then some { start := start, end_ := end_, finished := false }
  else none

def SUR_START : Nat := 0xD800
def SUR_END : Nat := 0xDFFF
def BEFORE_SUR : Nat := SUR_START - 1
def AFTER_SUR : Nat := SUR_END + 1

inductive Dir
  | Forward
  | Backward

/-- `fn step(c: char, d: Dir) -> char`.  The `u32` increment/decrement is kept
modulo `U32`; the final `transmute` back to `char` is the identity on the
codepoint, and its safety (the `debug_assert!`) is the theorem `step_safe`. -/
def step (c : Nat) (d : Dir) : Nat :=
  match d with
  | Dir.Forward => if c = BEFORE_SUR then AFTER_SUR else (c + 1) % U32
  | Dir.Backward => if c = AFTER_SUR then BEFORE_SUR else (c + U32 - 1) % U32

/-- `Iterator::next` for `Iter`, with the mutation made explicit: the result
pairs the returned `Option<char>` with the updated state. -/
def Iter.next (it : Iter) : Option Nat × Iter :=
  if it.finished then (none, it)
  else if it.start = it.end_ then (some it.start, { it with finished := true })
  else (some it.start, { it with start := step it.start Dir.Forward })

/-- `Iterator::size_hint` for `Iter`.  `end - start + 1` is computed in `u32`
in the source, hence the reduction modulo `U32`; the subtraction of the block
size is in `usize` and cannot underflow when the branch is taken, so plain
truncating subtraction is faithful there. -/
def Iter.size_hint (it : Iter) : Nat × Option Nat :=
  let len : Nat :=
    if it.finished then 0
    else
      let naive_count := (U32 + it.end_ - it.start + 1) % U32
      if it.start ≤ BEFORE_SUR ∧ AFTER_SUR ≤ it.end_ then
        naive_count - (SUR_END - SUR_START + 1)
      else
        naive_count
  (len, some len)

/-- `DoubleEndedIterator::next_back` for `Iter`, state passing as in
`Iter.next`. -/
def Iter.next_back (it : Iter) : Option Nat × Iter :=
  if it.finished then (none, it)
  else if it.start = it.end_ then (some it.end_, { it with finished := true })
  else (some it.end_, { it with end_ := step it.end_ Dir.Backward })

/-- The scalar values in the inclusive window `[s, e]`, in ascending order. -/
def scalarsIn (s e : Nat) : List Nat :=
  (List.range' s (e + 1 - s)).filter (fun n => decide (¬ inSurrogateBlock n))

/-- The list of values a cursor has left to yield, in ascending order. -/
def remaining (it : Iter) : List Nat :=
  if it.finished then [] else scalarsIn it.start it.end_

/-- The state invariant: an unfinished cursor holds two scalar values with
`start ≤ end`.  It holds at construction and is preserved by both
consumption operations. -/
def Valid (it : Iter) : Prop :=
  it.finished = true ∨ (IsScalar it.start ∧ IsScalar it.end_ ∧ it.start ≤ it.end_)

instance (it : Iter) : Decidable (Valid it) :=
  inferInstanceAs (Decidable (_ ∨ _))

/-- One consumption call in the requested direction. -/
def applyDir : Dir → Iter → Option Nat × Iter
  | Dir.Forward, it => it.next
  | Dir.Backward, it => it.next_back

/-- Drive the cursor through a sequence of directed calls, keeping the state. -/
def runTrace : List Dir → Iter → Iter
  | [], it => it
  | d :: ds, it => runTrace ds (applyDir d it).2

/-- Drive the cursor through a sequence of directed calls, collecting the
yielded values in call order. -/
def runOut : List Dir → Iter → List Nat
  | [], _ => []
  | d :: ds, it =>
    match applyDir d it with
    | (some c, it') => c :: runOut ds it'
    | (none, it') => runOut ds it'

/-- Exhaust the cursor forward (fuel-bounded; stops at the first `none`). -/
def collectF : Nat → Iter → List Nat
  | 0, _ => []
  | fuel + 1, it =>
    match it.next with
    | (some c, it') => c :: collectF fuel it'
    | (none, _) => []

/-- Exhaust the cursor backward (fuel-bounded; stops at the first `none`). -/
def collectB : Nat → Iter → List Nat
  | 0, _ => []
  | fuel + 1, it =>
    match it.next_back with
    | (some c, it') => c :: collectB fuel it'
    | (none, _) => []

/-! ### Lemmas about `scalarsIn` -/

lemma mem_scalarsIn {x s e : Nat} :
    x ∈ scalarsIn s e ↔ s ≤ x ∧ x ≤ e ∧ ¬ inSurrogateBlock x := by
  simp only [scalarsIn, List.mem_filter, List.mem_range'_1, decide_eq_true_eq,
    inSurrogateBlock]
  omega

lemma scalarsIn_cons {s e : Nat} (hs : ¬ inSurrogateBlock s) (hse : s ≤ e) :
    scalarsIn s e = s :: scalarsIn (s + 1) e := by
  unfold scalarsIn
  have h1 : e + 1 - s = (e - s) + 1 := by omega
  have h2 : e + 1 - (s + 1) = e - s := by omega
  rw [h1, h2, List.range'_succ, List.filter_cons_of_pos (by simp [hs])]

lemma scalarsIn_concat {s e : Nat} (he : ¬ inSurrogateBlock e) (h1 : 1 ≤ e)
    (hse : s ≤ e) : scalarsIn s e = scalarsIn s (e - 1) ++ [e] := by
  unfold scalarsIn
  have h2 : e + 1 - s = (e - s) + 1 := by omega
  have h3 : (e - 1) + 1 - s = e - s := by omega
  rw [h2, h3, List.range'_1_concat, List.filter_append]
  have h4 : s + (e - s) = e := by omega
  rw [h4]
  simp [he]

lemma scalarsIn_self {e : Nat} (he : ¬ inSurrogateBlock e) :
    scalarsIn e e = [e] := by
  unfold scalarsIn
  have h1 : e + 1 - e = 1 := by omega
  rw [h1, List.range'_one]
  simp [he]

lemma scalarsIn_skip_high {e : Nat} (he : 0xDFFF ≤ e) :
    scalarsIn 0xD800 e = scalarsIn 0xE000 e := by
  unfold scalarsIn
  have h1 : e + 1 - 0xD800 = (e + 1 - 0xE000) + 0x800 := by omega
  rw [h1, ← List.range'_append_1]
  have h2 : (0xD800 + 0x800 : Nat) = 0xE000 := by norm_num
  rw [h2, List.filter_append]
  have h3 : (List.range' 0xD800 0x800).filter
      (fun n => decide (¬ inSurrogateBlock n)) = [] := by
    rw [List.filter_eq_nil_iff]
    intro a ha
    simp only [List.mem_range'_1] at ha
    simp only [decide_eq_true_eq, inSurrogateBlock, Decidable.not_not]
    omega
  rw [h3, List.nil_append]

lemma scalarsIn_skip_low {s : Nat} (hs : s ≤ 0xD800) :
    scalarsIn s 0xDFFF = scalarsIn s 0xD7FF := by
  unfold scalarsIn
  have h1 : (0xDFFF : Nat) + 1 - s = 0x800 + (0xD800 - s) := by omega
  rw [h1, ← List.range'_append_1]
  have h2 : s + (0xD800 - s) = 0xD800 := by omega
  rw [h2, List.filter_append]
  have h3 : (List.range' 0xD800 0x800).filter
      (fun n => decide (¬ inSurrogateBlock n)) = [] := by
    rw [List.filter_eq_nil_iff]
    intro a ha
    simp only [List.mem_range'_1] at ha
    simp only [decide_eq_true_eq, inSurrogateBlock, Decidable.not_not]
    omega
  have h4 : (0xD7FF : Nat) + 1 - s = 0xD800 - s := by omega
  rw [h3, List.append_nil, h4]

lemma scalarsIn_nodup (s e : Nat) : (scalarsIn s e).Nodup :=
  ((List.filter_sublist _).nodup (List.nodup_range' s _))

lemma scalarsIn_length_no_block {s e : Nat} (h : e < 0xD800 ∨ 0xDFFF < s) :
    (scalarsIn s e).length = e + 1 - s := by
  unfold scalarsIn
  rw [List.filter_eq_self.mpr, List.length_range']
  intro a ha
  simp only [List.mem_range'_1] at ha
  simp only [decide_eq_true_eq, inSurrogateBlock]
  omega

lemma scalarsIn_split {s e : Nat} (hs : s ≤ 0xD7FF) (he : 0xDFFF ≤ e) :
    scalarsIn s e = scalarsIn s 0xD7FF ++ scalarsIn 0xE000 e := by
  rw [← scalarsIn_skip_high he]
  unfold scalarsIn
  have h1 : e + 1 - s = (e + 1 - 0xD800) + (0xD800 - s) := by omega
  rw [h1, ← List.range'_append_1]
  have h2 : s + (0xD800 - s) = 0xD800 := by omega
  have h3 : (0xD7FF : Nat) + 1 - s = 0xD800 - s := by omega
  rw [h2, h3, List.filter_append]

lemma scalarsIn_length {s e : Nat} (hs : IsScalar s) (he : IsScalar e)
    (hse : s ≤ e) :
    (scalarsIn s e).length =
      if s ≤ 0xD7FF ∧ 0xE000 ≤ e then e + 1 - s - 0x800 else e + 1 - s := by
  obtain ⟨hs1, hs2⟩ := hs
  obtain ⟨he1, he2⟩ := he
  simp only [inSurrogateBlock] at hs2 he2
  by_cases hcase : s ≤ 0xD7FF ∧ 0xE000 ≤ e
  · rw [if_pos hcase, scalarsIn_split hcase.1 (by omega)]
    rw [List.length_append, scalarsIn_length_no_block (by omega),
      scalarsIn_length_no_block (by omega)]
    omega
  · rw [if_neg hcase, scalarsIn_length_no_block (by omega)]

/-! ### Lemmas about `step` -/

lemma step_fwd {s e : Nat} (hs : IsScalar s) (he : IsScalar e) (hlt : s < e) :
    IsScalar (step s Dir.Forward) ∧ step s Dir.Forward ≤ e ∧
      scalarsIn s e = s :: scalarsIn (step s Dir.Forward) e := by
  obtain ⟨hs1, hs2⟩ := hs
  obtain ⟨he1, he2⟩ := he
  simp only [inSurrogateBlock] at hs2 he2
  have hcons := scalarsIn_cons (by simp only [inSurrogateBlock]; omega)
    (Nat.le_of_lt hlt) (e := e)
  by_cases hb : s = BEFORE_SUR
  · have hbv : BEFORE_SUR = 0xD7FF := rfl
    have hstep : step s Dir.Forward = 0xE000 := by
      simp [step, hb, AFTER_SUR, SUR_END]
    have hge : 0xE000 ≤ e := by rw [hbv] at hb; omega
    refine ⟨⟨by omega, by simp only [inSurrogateBlock]; omega⟩, by omega, ?_⟩
    rw [hstep, hcons, hb, hbv]
    rw [show (0xD7FF : Nat) + 1 = 0xD800 from rfl, scalarsIn_skip_high (by omega)]
  · have hstep : step s Dir.Forward = s + 1 := by
      simp only [step, if_neg hb]
      have : s + 1 < U32 := by simp only [U32]; omega
      exact Nat.mod_eq_of_lt this
    have hbv : BEFORE_SUR = 0xD7FF := rfl
    rw [hbv] at hb
    refine ⟨⟨by omega, by simp only [inSurrogateBlock]; omega⟩, by omega, ?_⟩
    rw [hstep, hcons]

lemma step_bwd {s e : Nat} (hs : IsScalar s) (he : IsScalar e) (hlt : s < e) :
    IsScalar (step e Dir.Backward) ∧ s ≤ step e Dir.Backward ∧
      scalarsIn s e = scalarsIn s (step e Dir.Backward) ++ [e] := by
  obtain ⟨hs1, hs2⟩ := hs
  obtain ⟨he1, he2⟩ := he
  simp only [inSurrogateBlock] at hs2 he2
  have hconcat := scalarsIn_concat (by simp only [inSurrogateBlock]; omega)
    (by omega) (Nat.le_of_lt hlt) (s := s)
  by_cases hb : e = AFTER_SUR
  · have hbv : AFTER_SUR = 0xE000 := rfl
    have hstep : step e Dir.Backward = 0xD7FF := by
      simp [step, hb, BEFORE_SUR, SUR_START]
    have hsle : s ≤ 0xD7FF := by rw [hbv] at hb; omega
    refine ⟨⟨by omega, by simp only [inSurrogateBlock]; omega⟩, by omega, ?_⟩
    rw [hstep, hconcat, hb, hbv]
    rw [show (0xE000 : Nat) - 1 = 0xDFFF from rfl, scalarsIn_skip_low (by omega)]
  · have hstep : step e Dir.Backward = e - 1 := by
      simp only [step, if_neg hb, U32]
      omega
    have hbv : AFTER_SUR = 0xE000 := rfl
    rw [hbv] at hb
    refine ⟨⟨by omega, by simp only [inSurrogateBlock]; omega⟩, by omega, ?_⟩
    rw [hstep, hconcat]

/-! ### Simulation lemmas: each consumption call against `remaining` -/

lemma next_cases (it : Iter) (h : Valid it) :
    (remaining it = [] ∧ it.next = (none, it)) ∨
    (∃ a it', it.next = (some a, it') ∧ remaining it = a :: remaining it' ∧
      Valid it') := by
  cases hfin : it.finished with
  | true =>
    left
    exact ⟨by simp [remaining, hfin], by simp [Iter.next, hfin]⟩
  | false =>
    have hv : IsScalar it.start ∧ IsScalar it.end_ ∧ it.start ≤ it.end_ := by
      rcases h with h | h
      · rw [hfin] at h; exact absurd h (by simp)
      · exact h
    by_cases heq : it.start = it.end_
    · right
      refine ⟨it.start, { it with finished := true }, ?_, ?_, Or.inl rfl⟩
      · simp [Iter.next, hfin, heq]
      · simp only [remaining, hfin, Bool.false_eq_true, if_false, if_true]
        rw [heq, scalarsIn_self hv.2.1.2, ← heq]
    · have hlt : it.start < it.end_ := Nat.lt_of_le_of_ne hv.2.2 heq
      obtain ⟨hval, hle, hlist⟩ := step_fwd hv.1 hv.2.1 hlt
      right
      refine ⟨it.start, { it with start := step it.start Dir.Forward }, ?_, ?_, ?_⟩
      · simp [Iter.next, hfin, heq]
      · simp only [remaining, hfin, Bool.false_eq_true, if_false]
        exact hlist
      · exact Or.inr ⟨hval, hv.2.1, hle⟩

lemma next_back_cases (it : Iter) (h : Valid it) :
    (remaining it = [] ∧ it.next_back = (none, it)) ∨
    (∃ a it', it.next_back = (some a, it') ∧
      remaining it = remaining it' ++ [a] ∧ Valid it') := by
  cases hfin : it.finished with
  | true =>
    left
    exact ⟨by simp [remaining, hfin], by simp [Iter.next_back, hfin]⟩
  | false =>
    have hv : IsScalar it.start ∧ IsScalar it.end_ ∧ it.start ≤ it.end_ := by
      rcases h with h | h
      · rw [hfin] at h; exact absurd h (by simp)
      · exact h
    by_cases heq : it.start = it.end_
    · right
      refine ⟨it.end_, { it with finished := true }, ?_, ?_, Or.inl rfl⟩
      · simp [Iter.next_back, hfin, heq]
      · simp only [remaining, hfin, Bool.false_eq_true, if_false, if_true]
        rw [heq, scalarsIn_self hv.2.1.2, List.nil_append]
    · have hlt : it.start < it.end_ := Nat.lt_of_le_of_ne hv.2.2 heq
      obtain ⟨hval, hle, hlist⟩ := step_bwd hv.1 hv.2.1 hlt
      right
      refine ⟨it.end_, { it with end_ := step it.end_ Dir.Backward }, ?_, ?_, ?_⟩
      · simp [Iter.next_back, hfin, heq]
      · simp only [remaining, hfin, Bool.false_eq_true, if_false]
        exact hlist
      · exact Or.inr ⟨hv.1, hval, hle⟩

lemma applyDir_cases (d : Dir) (it : Iter) (h : Valid it) :
    (remaining it = [] ∧ applyDir d it = (none, it)) ∨
    (∃ a it', applyDir d it = (some a, it') ∧ Valid it' ∧ a ∈ remaining it ∧
      (remaining it' ++ [a]).Perm (remaining it)) := by
  cases d with
  | Forward =>
    rcases next_cases it h with ⟨hrem, hnext⟩ | ⟨a, it', hnext, hrem, hval⟩
    · exact Or.inl ⟨hrem, hnext⟩
    · refine Or.inr ⟨a, it', hnext, hval, ?_, ?_⟩
      · rw [hrem]; exact List.mem_cons_self a _
      · rw [hrem]; exact List.perm_append_singleton a _
  | Backward =>
    rcases next_back_cases it h with ⟨hrem, hnb⟩ | ⟨a, it', hnb, hrem, hval⟩
    · exact Or.inl ⟨hrem, hnb⟩
    · refine Or.inr ⟨a, it', hnb, hval, ?_, ?_⟩
      · rw [hrem]; exact List.mem_append_right _ (List.mem_singleton.mpr rfl)
      · rw [hrem]

lemma valid_applyDir (d : Dir) (it : Iter) (h : Valid it) :
    Valid (applyDir d it).2 := by
  rcases applyDir_cases d it h with ⟨_, happ⟩ | ⟨a, it', happ, hval, _, _⟩
  · rw [happ]; exact h
  · rw [happ]; exact hval

lemma valid_runTrace (ds : List Dir) (it : Iter) (h : Valid it) :
    Valid (runTrace ds it) := by
  induction ds generalizing it with
  | nil => exact h
  | cons d ds ih => exact ih _ (valid_applyDir d it h)

lemma runOut_perm (ds : List Dir) (it : Iter) (h : Valid it) :
    (runOut ds it ++ remaining (runTrace ds it)).Perm (remaining it) := by
  induction ds generalizing it with
  | nil => simp [runOut, runTrace]
  | cons d ds ih =>
    rcases applyDir_cases d it h with ⟨hrem, happ⟩ | ⟨a, it', happ, hval, _, hperm⟩
    · show (runOut (d :: ds) it ++ remaining (runTrace ds (applyDir d it).2)).Perm _
      rw [show runOut (d :: ds) it = runOut ds it from by rw [runOut, happ], happ]
      exact ih it h
    · show (runOut (d :: ds) it ++ remaining (runTrace ds (applyDir d it).2)).Perm _
      rw [show runOut (d :: ds) it = a :: runOut ds it' from by rw [runOut, happ],
        happ]
      exact ((ih it' hval).cons a).trans
        (((List.perm_append_singleton a _).symm).trans hperm)

lemma size_hint_len (it : Iter) (h : Valid it) :
    it.size_hint = ((remaining it).length, some (remaining it).length) := by
  cases hfin : it.finished with
  | true => simp [Iter.size_hint, remaining, hfin]
  | false =>
    have hv : IsScalar it.start ∧ IsScalar it.end_ ∧ it.start ≤ it.end_ := by
      rcases h with h | h
      · rw [hfin] at h; exact absurd h (by simp)
      · exact h
    obtain ⟨⟨hs1, hs2⟩, ⟨he1, he2⟩, hse⟩ := hv
    simp only [Iter.size_hint, remaining, hfin, Bool.false_eq_true, if_false]
    rw [scalarsIn_length ⟨hs1, hs2⟩ ⟨he1, he2⟩ hse]
    have hnaive : (U32 + it.end_ - it.start + 1) % U32 = it.end_ + 1 - it.start := by
      simp only [U32]; omega
    have hc : (BEFORE_SUR = (0xD7FF : Nat)) ∧ (AFTER_SUR = (0xE000 : Nat)) ∧
        (SUR_END - SUR_START + 1 = (0x800 : Nat)) := ⟨rfl, rfl, rfl⟩
    rw [hnaive, hc.1, hc.2.1, hc.2.2]

/-! ### What a yielded value is -/

lemma next_out_eq {it : Iter} {c : Nat} (h : (it.next).1 = some c) :
    it.finished = false ∧ c = it.start := by
  by_cases hfin : it.finished
  · simp [Iter.next, hfin] at h
  · refine ⟨Bool.eq_false_iff.mpr hfin, ?_⟩
    by_cases heq : it.start = it.end_ <;>
      simp [Iter.next, hfin, heq] at h <;> omega

lemma next_back_out_eq {it : Iter} {c : Nat} (h : (it.next_back).1 = some c) :
    it.finished = false ∧ c = it.end_ := by
  by_cases hfin : it.finished
  · simp [Iter.next_back, hfin] at h
  · refine ⟨Bool.eq_false_iff.mpr hfin, ?_⟩
    by_cases heq : it.start = it.end_ <;>
      simp [Iter.next_back, hfin, heq] at h <;> omega

/-! ### Exhausting in one direction -/

lemma collectF_spec (fuel : Nat) :
    ∀ it : Iter, Valid it → (remaining it).length ≤ fuel →
      collectF fuel it = remaining it := by
  induction fuel with
  | zero =>
    intro it h hlen
    rw [List.length_eq_zero.mp (Nat.le_zero.mp hlen)]
    rfl
  | succ n ih =>
    intro it h hlen
    rcases next_cases it h with ⟨hrem, hnext⟩ | ⟨a, it', hnext, hrem, hval⟩
    · rw [show collectF (n + 1) it = [] from by rw [collectF, hnext], hrem]
    · rw [show collectF (n + 1) it = a :: collectF n it' from by
        rw [collectF, hnext], hrem]
      have : (remaining it').length ≤ n := by
        have := hlen; rw [hrem] at this; simpa using this
      rw [ih it' hval this]

lemma collectB_spec (fuel : Nat) :
    ∀ it : Iter, Valid it → (remaining it).length ≤ fuel →
      collectB fuel it = (remaining it).reverse := by
  induction fuel with
  | zero =>
    intro it h hlen
    rw [List.length_eq_zero.mp (Nat.le_zero.mp hlen)]
    rfl
  | succ n ih =>
    intro it h hlen
    rcases next_back_cases it h with ⟨hrem, hnb⟩ | ⟨a, it', hnb, hrem, hval⟩
    · rw [show collectB (n + 1) it = [] from by rw [collectB, hnb], hrem]
      rfl
    · rw [show collectB (n + 1) it = a :: collectB n it' from by
        rw [collectB, hnb], hrem, List.reverse_concat]
      have : (remaining it').length ≤ n := by
        have := hlen; rw [hrem] at this; simp at this; omega
      rw [ih it' hval this]

/-! ### Small helpers for the claim theorems -/

lemma step_fwd_def (c : Nat) :
    step c Dir.Forward = if c = 0xD7FF then 0xE000 else (c + 1) % U32 := rfl

lemma step_bwd_def (c : Nat) :
    step c Dir.Backward = if c = 0xE000 then 0xD7FF else (c + U32 - 1) % U32 := rfl

lemma next_finished {it : Iter} (h : it.finished = true) :
    it.next = (none, it) := by
  simp [Iter.next, h]

lemma next_back_finished {it : Iter} (h : it.finished = true) :
    it.next_back = (none, it) := by
  simp [Iter.next_back, h]

lemma new_inv {s e : Nat} {it : Iter} (hnew : new s e = some it) :
    it = { start := s, end_ := e, finished := false } ∧ s ≤ e := by
  by_cases h : s ≤ e
  · rw [new, if_pos h] at hnew
    exact ⟨(Option.some.inj hnew).symm, h⟩
  · rw [new, if_neg h] at hnew
    exact absurd hnew (by simp)

lemma valid_mk {s e : Nat} (hs : IsScalar s) (he : IsScalar e) (hse : s ≤ e) :
    Valid { start := s, end_ := e, finished := false } :=
  Or.inr ⟨hs, he, hse⟩

lemma remaining_mk (s e : Nat) :
    remaining { start := s, end_ := e, finished := false } = scalarsIn s e := by
  simp [remaining]

lemma unfinished_inv {it : Iter} (h : Valid it) (hfin : it.finished = false) :
    IsScalar it.start ∧ IsScalar it.end_ ∧ it.start ≤ it.end_ := by
  rcases h with h | h
  · rw [hfin] at h
    exact absurd h (by simp)
  · exact h

lemma scalarsIn_d7ff_e000 : scalarsIn 0xD7FF 0xE000 = [0xD7FF, 0xE000] := by
  rw [scalarsIn_cons (by decide) (by norm_num),
    show (0xD7FF : Nat) + 1 = 0xD800 from rfl, scalarsIn_skip_high (by norm_num),
    scalarsIn_self (by decide)]

/-! ### The claims -/

/-- C1: for every scalar value `c` other than the maximum `0x10FFFF` of the
legal domain, the forward step of `c` is `0xE000` when `c = 0xD7FF` and
`c + 1` otherwise; for every scalar value `c` other than the minimum `0`,
the backward step of `c` is `0xD7FF` when `c = 0xE000` and `c - 1`
otherwise (the `u32` arithmetic never wraps on these inputs). -/
theorem step_eq (c : Nat) (hc : IsScalar c) :
    (c ≠ 0x10FFFF → step c Dir.Forward = if c = 0xD7FF then 0xE000 else c + 1) ∧
    (c ≠ 0 → step c Dir.Backward = if c = 0xE000 then 0xD7FF else c - 1) := by
  obtain ⟨h1, _⟩ := hc
  constructor
  · intro hmax
    rw [step_fwd_def]
    by_cases hb : c = 0xD7FF
    · simp [hb]
    · rw [if_neg hb, if_neg hb, Nat.mod_eq_of_lt (by simp only [U32]; omega)]
  · intro hmin
    rw [step_bwd_def]
    by_cases hb : c = 0xE000
    · simp [hb]
    · rw [if_neg hb, if_neg hb]
      simp only [U32]
      omega

/-- Witness for C1 at `c = 0xD7FF` (forward, gap jump) and `c = 0x61`
(backward, plain decrement). -/
theorem step_eq_witness :
    step 0xD7FF Dir.Forward = 0xE000 ∧ step 0x61 Dir.Backward = 0x60 := by
  have h1 := (step_eq 0xD7FF (by decide)).1 (by decide)
  have h2 := (step_eq 0x61 (by decide)).2 (by decide)
  rw [if_pos rfl] at h1
  rw [if_neg (by decide)] at h2
  exact ⟨h1, h2⟩

/-- C7: `new start end` fails (returns `none`, modelling the `assert!` panic)
exactly when `start > end`; on `start ≤ end` it returns the cursor holding
the given bounds unchanged with `finished = false`. -/
theorem new_spec (s e : Nat) :
    (e < s → new s e = none) ∧
    (s ≤ e → new s e = some { start := s, end_ := e, finished := false }) := by
  constructor
  · intro h
    simp [new, Nat.not_le.mpr h]
  · intro h
    simp [new, h]

/-- Witness for C7: construction fails on `(98, 97)` and succeeds on
`(97, 98)`. -/
theorem new_spec_witness :
    new 98 97 = none ∧
    new 97 98 = some { start := 97, end_ := 98, finished := false } :=
  ⟨(new_spec 98 97).1 (by decide), (new_spec 97 98).2 (by decide)⟩

/-- C9: under the consumption protocol's calling discipline (forward step only
on a value strictly below a valid `end`, backward step only on a value
strictly above a valid `start`), the result of `step` is always a valid
scalar value — so the source's `debug_assert!` can never fire and its
`transmute` to `char` is safe. -/
theorem step_safe (c bound : Nat) :
    (IsScalar c → IsScalar bound → c < bound → IsScalar (step c Dir.Forward)) ∧
    (IsScalar c → IsScalar bound → bound < c → IsScalar (step c Dir.Backward)) := by
  constructor
  · intro hc hb hlt
    exact (step_fwd hc hb hlt).1
  · intro hc hb hlt
    exact (step_bwd hb hc hlt).1

/-- Witness for C9 at the two gap edges. -/
theorem step_safe_witness :
    IsScalar (step 0xD7FF Dir.Forward) ∧ IsScalar (step 0xE000 Dir.Backward) :=
  ⟨(step_safe 0xD7FF 0xE000).1 (by decide) (by decide) (by decide),
   (step_safe 0xE000 0xD7FF).2 (by decide) (by decide) (by decide)⟩

/-- C10: on a cursor with `finished = true`, both `next` and `next_back`
return `none` and an identical state — `start`, `end` and `finished` are
all left unchanged. -/
theorem finished_frozen (it : Iter) (h : it.finished = true) :
    it.next = (none, it) ∧ it.next_back = (none, it) :=
  ⟨next_finished h, next_back_finished h⟩

/-- Witness for C10 on a concrete finished cursor. -/
theorem finished_frozen_witness :
    Iter.next { start := 97, end_ := 98, finished := true } =
      (none, { start := 97, end_ := 98, finished := true }) ∧
    Iter.next_back { start := 97, end_ := 98, finished := true } =
      (none, { start := 97, end_ := 98, finished := true }) :=
  finished_frozen { start := 97, end_ := 98, finished := true } rfl

/-- C8: once a valid cursor reports size 0, every later `next`/`next_back`
call returns `none`, indefinitely, and never yields any value again (the
state is in fact frozen, so no previously yielded value can resurface). -/
theorem exhausted_forever (it : Iter) (h : Valid it)
    (h0 : (it.size_hint).1 = 0) (ds : List Dir) :
    runTrace ds it = it ∧ ∀ d : Dir, (applyDir d (runTrace ds it)).1 = none := by
  have hfin : it.finished = true := by
    by_contra hf
    have hf' : it.finished = false := Bool.eq_false_iff.mpr hf
    obtain ⟨hs, he, hse⟩ := unfinished_inv h hf'
    rw [size_hint_len it h] at h0
    have hmem : it.start ∈ remaining it := by
      simp only [remaining, hf', Bool.false_eq_true, if_false]
      exact mem_scalarsIn.mpr ⟨Nat.le_refl _, hse, hs.2⟩
    rw [List.length_eq_zero.mp h0] at hmem
    exact absurd hmem (List.not_mem_nil _)
  have hrun : runTrace ds it = it := by
    induction ds with
    | nil => rfl
    | cons d ds ih =>
      have happ : (applyDir d it).2 = it := by
        cases d with
        | Forward => rw [show applyDir Dir.Forward it = it.next from rfl,
            next_finished hfin]
        | Backward => rw [show applyDir Dir.Backward it = it.next_back from rfl,
            next_back_finished hfin]
      rw [runTrace, happ, ih]
  refine ⟨hrun, ?_⟩
  intro d
  rw [hrun]
  cases d with
  | Forward =>
    rw [show applyDir Dir.Forward it = it.next from rfl, next_finished hfin]
  | Backward =>
    rw [show applyDir Dir.Backward it = it.next_back from rfl,
      next_back_finished hfin]

/-- Witness for C8 on a concrete exhausted cursor and a nonempty trace. -/
theorem exhausted_forever_witness :
    runTrace [Dir.Forward] { start := 97, end_ := 97, finished := true } =
      { start := 97, end_ := 97, finished := true } ∧
    (applyDir Dir.Backward (runTrace [Dir.Forward]
      { start := 97, end_ := 97, finished := true })).1 = none :=
  ⟨(exhausted_forever { start := 97, end_ := 97, finished := true }
      (by decide) (by decide) [Dir.Forward]).1,
   (exhausted_forever { start := 97, end_ := 97, finished := true }
      (by decide) (by decide) [Dir.Forward]).2 Dir.Backward⟩

/-- C2: for a cursor built by `new` from scalar values `s ≤ e` and driven
through any sequence of `next`/`next_back` calls, `size_hint` returns a pair
whose second component is `some` of the first, the first component counts
exactly the values still to be yielded (exhausting the cursor forward with
that much fuel yields exactly that many values), every yielding call
decreases it by exactly 1, and a non-yielding call happens exactly at 0 and
leaves it 0. -/
theorem size_hint_exact (s e : Nat) (hs : IsScalar s) (he : IsScalar e)
    (hse : s ≤ e) (it0 : Iter) (hnew : new s e = some it0) (ds : List Dir) :
    ((runTrace ds it0).size_hint).2 = some ((runTrace ds it0).size_hint).1 ∧
    ((runTrace ds it0).size_hint).1 =
      (collectF ((runTrace ds it0).size_hint).1 (runTrace ds it0)).length ∧
    (∀ d c, (applyDir d (runTrace ds it0)).1 = some c →
      ((applyDir d (runTrace ds it0)).2.size_hint).1 + 1 =
        ((runTrace ds it0).size_hint).1) ∧
    (∀ d : Dir, (applyDir d (runTrace ds it0)).1 = none →
      ((runTrace ds it0).size_hint).1 = 0 ∧
      ((applyDir d (runTrace ds it0)).2.size_hint).1 = 0) := by
  obtain ⟨hit, -⟩ := new_inv hnew
  have hval0 : Valid it0 := by rw [hit]; exact valid_mk hs he hse
  have hvalR : Valid (runTrace ds it0) := valid_runTrace ds it0 hval0
  have hlen := size_hint_len _ hvalR
  refine ⟨by rw [hlen], ?_, ?_, ?_⟩
  · rw [hlen]
    rw [collectF_spec _ _ hvalR (Nat.le_refl _)]
  · intro d c hc
    rcases applyDir_cases d _ hvalR with ⟨hrem, happ⟩ | ⟨a, it', happ, hval', _, hperm⟩
    · rw [happ] at hc
      exact absurd hc (by simp)
    · rw [happ, size_hint_len it' hval', hlen]
      have := hperm.length_eq
      simp only [List.length_append, List.length_singleton] at this
      exact this
  · intro d hd
    rcases applyDir_cases d _ hvalR with ⟨hrem, happ⟩ | ⟨a, it', happ, _, _, _⟩
    · rw [happ, hlen, hrem]
      exact ⟨rfl, rfl⟩
    · rw [happ] at hd
      exact absurd hd (by simp)

/-- Witness for C2 on `new(97, 102)` after one forward call. -/
theorem size_hint_exact_witness :
    ((runTrace [Dir.Forward] { start := 97, end_ := 102, finished := false }).size_hint).2 =
      some ((runTrace [Dir.Forward]
        { start := 97, end_ := 102, finished := false }).size_hint).1 ∧
    ((runTrace [Dir.Forward] { start := 97, end_ := 102, finished := false }).size_hint).1 =
      (collectF ((runTrace [Dir.Forward]
          { start := 97, end_ := 102, finished := false }).size_hint).1
        (runTrace [Dir.Forward]
          { start := 97, end_ := 102, finished := false })).length := by
  have h := size_hint_exact 97 102 (by decide) (by decide) (by decide)
    { start := 97, end_ := 102, finished := false } rfl [Dir.Forward]
  exact ⟨h.1, h.2.1⟩

/-- C3: for every cursor built over a window that spans the surrogate block,
no value yielded by `next` or `next_back` — at any point of any interleaved
consumption — lies in the block; and the boundary cursor over
`[0xD7FF, 0xE000]` yields exactly `[0xD7FF, 0xE000]` when exhausted forward
and exactly `[0xE000, 0xD7FF]` when exhausted backward. -/
theorem surrogate_excluded :
    (∀ s e : Nat, IsScalar s → IsScalar e → s ≤ 0xD7FF → 0xE000 ≤ e →
      ∀ it0 : Iter, new s e = some it0 → ∀ (ds : List Dir) (d : Dir) (c : Nat),
        (applyDir d (runTrace ds it0)).1 = some c → ¬ inSurrogateBlock c) ∧
    (∀ fuel : Nat, 2 ≤ fuel →
      collectF fuel { start := 0xD7FF, end_ := 0xE000, finished := false } =
        [0xD7FF, 0xE000] ∧
      collectB fuel { start := 0xD7FF, end_ := 0xE000, finished := false } =
        [0xE000, 0xD7FF]) := by
  constructor
  · intro s e hs he hs7 he0 it0 hnew ds d c hc
    obtain ⟨hit, hse⟩ := new_inv hnew
    have hval0 : Valid it0 := by rw [hit]; exact valid_mk hs he hse
    have hvalR : Valid (runTrace ds it0) := valid_runTrace ds it0 hval0
    cases d with
    | Forward =>
      have hc' : ((runTrace ds it0).next).1 = some c := hc
      obtain ⟨hfin, rfl⟩ := next_out_eq hc'
      exact (unfinished_inv hvalR hfin).1.2
    | Backward =>
      have hc' : ((runTrace ds it0).next_back).1 = some c := hc
      obtain ⟨hfin, rfl⟩ := next_back_out_eq hc'
      exact (unfinished_inv hvalR hfin).2.1.2
  · intro fuel hfuel
    have hval : Valid { start := 0xD7FF, end_ := 0xE000, finished := false } :=
      valid_mk (by decide) (by decide) (by norm_num)
    have hrem : remaining { start := 0xD7FF, end_ := 0xE000, finished := false } =
        [0xD7FF, 0xE000] := by
      rw [remaining_mk, scalarsIn_d7ff_e000]
    have hlen : (remaining
        { start := 0xD7FF, end_ := 0xE000, finished := false }).length ≤ fuel := by
      rw [hrem]
      simpa using hfuel
    constructor
    · rw [collectF_spec fuel _ hval hlen, hrem]
    · rw [collectB_spec fuel _ hval hlen, hrem]
      rfl

/-- Witness for C3: a concrete yielded value outside the block, and the
boundary cursor exhausted with fuel 2. -/
theorem surrogate_excluded_witness :
    ¬ inSurrogateBlock 0xD7FF ∧
    collectF 2 { start := 0xD7FF, end_ := 0xE000, finished := false } =
      [0xD7FF, 0xE000] :=
  ⟨surrogate_excluded.1 0xD7FF 0xE000 (by decide) (by decide) (by decide)
      (by decide) { start := 0xD7FF, end_ := 0xE000, finished := false } rfl
      [] Dir.Forward 0xD7FF rfl,
   (surrogate_excluded.2 2 (Nat.le_refl 2)).1⟩

/-- C4: for a cursor built by `new` from scalar values `s ≤ e` and any
interleaving of `next`/`next_back` calls: the values yielded so far together
with the values still remaining are a permutation of the scalar values of
`[s, e]` (so at exhaustion the yielded values are exactly that set, with no
repeats); each yielding call consumes exactly its one value from the
remaining set; `next` always yields the smallest unyielded value and
`next_back` the largest. -/
theorem interleave_partition (s e : Nat) (hs : IsScalar s) (he : IsScalar e)
    (hse : s ≤ e) (it0 : Iter) (hnew : new s e = some it0) (ds : List Dir) :
    (runOut ds it0 ++ remaining (runTrace ds it0)).Perm (scalarsIn s e) ∧
    (remaining (runTrace ds it0) = [] →
      (runOut ds it0).Perm (scalarsIn s e) ∧ (runOut ds it0).Nodup) ∧
    (∀ d c, (applyDir d (runTrace ds it0)).1 = some c →
      c ∈ remaining (runTrace ds it0) ∧
      (remaining ((applyDir d (runTrace ds it0)).2) ++ [c]).Perm
        (remaining (runTrace ds it0))) ∧
    (∀ c, ((runTrace ds it0).next).1 = some c →
      c ∈ remaining (runTrace ds it0) ∧
        ∀ x ∈ remaining (runTrace ds it0), c ≤ x) ∧
    (∀ c, ((runTrace ds it0).next_back).1 = some c →
      c ∈ remaining (runTrace ds it0) ∧
        ∀ x ∈ remaining (runTrace ds it0), x ≤ c) := by
  obtain ⟨hit, -⟩ := new_inv hnew
  have hval0 : Valid it0 := by rw [hit]; exact valid_mk hs he hse
  have hvalR : Valid (runTrace ds it0) := valid_runTrace ds it0 hval0
  have hrem0 : remaining it0 = scalarsIn s e := by rw [hit, remaining_mk]
  have hperm : (runOut ds it0 ++ remaining (runTrace ds it0)).Perm (scalarsIn s e) := by
    rw [← hrem0]
    exact runOut_perm ds it0 hval0
  refine ⟨hperm, ?_, ?_, ?_, ?_⟩
  · intro hdone
    rw [hdone, List.append_nil] at hperm
    exact ⟨hperm, hperm.nodup_iff.mpr (scalarsIn_nodup s e)⟩
  · intro d c hc
    rcases applyDir_cases d _ hvalR with ⟨hrem, happ⟩ | ⟨a, it', happ, _, hmem, hp⟩
    · rw [happ] at hc
      exact absurd hc (by simp)
    · rw [happ] at hc
      obtain rfl : a = c := by simpa using hc
      rw [happ]
      exact ⟨hmem, hp⟩
  · intro c hc
    obtain ⟨hfin, rfl⟩ := next_out_eq hc
    obtain ⟨hsv, hev, hsev⟩ := unfinished_inv hvalR hfin
    have hremR : remaining (runTrace ds it0) =
        scalarsIn (runTrace ds it0).start (runTrace ds it0).end_ := by
      simp [remaining, hfin]
    constructor
    · rw [hremR]
      exact mem_scalarsIn.mpr ⟨Nat.le_refl _, hsev, hsv.2⟩
    · intro x hx
      rw [hremR] at hx
      exact (mem_scalarsIn.mp hx).1
  · intro c hc
    obtain ⟨hfin, rfl⟩ := next_back_out_eq hc
    obtain ⟨hsv, hev, hsev⟩ := unfinished_inv hvalR hfin
    have hremR : remaining (runTrace ds it0) =
        scalarsIn (runTrace ds it0).start (runTrace ds it0).end_ := by
      simp [remaining, hfin]
    constructor
    · rw [hremR]
      exact mem_scalarsIn.mpr ⟨hsev, Nat.le_refl _, hev.2⟩
    · intro x hx
      rw [hremR] at hx
      exact (mem_scalarsIn.mp hx).2.1

/-- Witness for C4 on `new(97, 98)` after one forward call. -/
theorem interleave_partition_witness :
    (runOut [Dir.Forward] { start := 97, end_ := 98, finished := false } ++
      remaining (runTrace [Dir.Forward]
        { start := 97, end_ := 98, finished := false })).Perm (scalarsIn 97 98) :=
  (interleave_partition 97 98 (by decide) (by decide) (by decide)
    { start := 97, end_ := 98, finished := false } rfl [Dir.Forward]).1

/-- C5: for a cursor built by `new` from scalar values `s ≤ e`, exhausting it
backward yields the reverse of the sequence obtained by exhausting an
identically constructed cursor forward. -/
theorem rev_symmetry (s e : Nat) (hs : IsScalar s) (he : IsScalar e)
    (hse : s ≤ e) (it0 : Iter) (hnew : new s e = some it0) (fuel : Nat)
    (hfuel : (remaining it0).length ≤ fuel) :
    collectB fuel it0 = (collectF fuel it0).reverse := by
  obtain ⟨hit, -⟩ := new_inv hnew
  have hval0 : Valid it0 := by rw [hit]; exact valid_mk hs he hse
  rw [collectB_spec fuel it0 hval0 hfuel, collectF_spec fuel it0 hval0 hfuel]

/-- Witness for C5 on `new(97, 98)` with fuel 2. -/
theorem rev_symmetry_witness :
    collectB 2 { start := 97, end_ := 98, finished := false } =
      (collectF 2 { start := 97, end_ := 98, finished := false }).reverse :=
  rev_symmetry 97 98 (by decide) (by decide) (by decide)
    { start := 97, end_ := 98, finished := false } rfl 2 (by decide)

/-- C6: for a cursor built by `new` from scalar values `s ≤ e`, exhausting it
forward yields a non-empty sequence whose first element is `s` and whose
last element is `e`. -/
theorem inclusive_bounds (s e : Nat) (hs : IsScalar s) (he : IsScalar e)
    (hse : s ≤ e) (it0 : Iter) (hnew : new s e = some it0) (fuel : Nat)
    (hfuel : (remaining it0).length ≤ fuel) :
    collectF fuel it0 ≠ [] ∧ (collectF fuel it0).head? = some s ∧
      (collectF fuel it0).getLast? = some e := by
  obtain ⟨hit, -⟩ := new_inv hnew
  have hval0 : Valid it0 := by rw [hit]; exact valid_mk hs he hse
  have hrem0 : remaining it0 = scalarsIn s e := by rw [hit, remaining_mk]
  rw [collectF_spec fuel it0 hval0 hfuel, hrem0]
  have hcons := scalarsIn_cons hs.2 hse
  refine ⟨by rw [hcons]; simp, by rw [hcons]; rfl, ?_⟩
  by_cases heq : s = e
  · rw [← heq, scalarsIn_self hs.2]
    rfl
  · have hlt : s < e := Nat.lt_of_le_of_ne hse heq
    rw [scalarsIn_concat he.2 (by omega) hse, List.getLast?_concat]

/-- Witness for C6 on `new(0xD7FF, 0xE000)` with fuel 2. -/
theorem inclusive_bounds_witness :
    collectF 2 { start := 0xD7FF, end_ := 0xE000, finished := false } ≠ [] ∧
    (collectF 2 { start := 0xD7FF, end_ := 0xE000, finished := false }).head? =
      some 0xD7FF ∧
    (collectF 2 { start := 0xD7FF, end_ := 0xE000, finished := false }).getLast? =
      some 0xE000 :=
  inclusive_bounds 0xD7FF 0xE000 (by decide) (by decide) (by norm_num)
    { start := 0xD7FF, end_ := 0xE000, finished := false } rfl 2
    (by rw [remaining_mk, scalarsIn_d7ff_e000]; norm_num)

end CharIter
